import Mathlib

/-!
Verification of the `git-user` interactive session core
(`src/cmd/git-user/main.go`) against its natural-language specification.

The Go source is shallowly embedded: pure helpers become Lean functions, the
SQLite-backed store becomes an explicit state record with fallible operations,
and the bubbletea update functions become step functions from a model and a key
event to a new model plus a list of external effects.  External collaborators
(the `sahilm/fuzzy` library and the SQLite driver's `LastInsertId`) are
modelled at their documented interface, as noted on the individual
definitions.
-/

namespace GitUser

/-- An identity row (`User` in the source): surrogate id plus name and email. -/
structure User where
  id : Int
  name : String
  email : String
  deriving DecidableEq

/-- Model of Go `strings.TrimSpace`: drop leading and trailing whitespace. -/
def goTrim (s : String) : String :=
  ⟨((s.data.dropWhile Char.isWhitespace).reverse.dropWhile Char.isWhitespace).reverse⟩

/-- Lower-case a string character by character (ASCII folding). -/
def goLower (s : String) : String := ⟨s.data.map Char.toLower⟩

/-- `userItem.FilterValue` in the source: the searchable text `name <email>`. -/
def filterValue (u : User) : String := u.name ++ " <" ++ u.email ++ ">"

/-! ### Fuzzy matching

The repository delegates matching to the external `sahilm/fuzzy` library
(`fuzzy.Find`), which is not part of the repository.  Matching and scoring are
therefore modelled from the spec (§4.2): a query matches a candidate iff every
query character appears in the candidate in the same relative order
(case-folded, so that the spec's own scenario "ali" ↦ "Alice Smith" holds).
The score is modelled as the pair (total gap of the greedy leftmost match,
position of its first matched character), ranked by ascending gap first and
ascending first-position second: this realises the spec's mandatory ordering
contract — an exact substring match (gap 0) outranks a scattered subsequence
match of the same query, shorter gaps outrank longer gaps — and rewards
contiguous runs (smaller gaps) and early matches (the tiebreak).  Results are
ordered by descending score with ties broken by original corpus order (a
stable sort, as the library's `sort.Stable` provides). -/

/-- Modelled from the spec: case-folded subsequence test — every query
character appears in the candidate in the same relative order. -/
def isSubseq : List Char → List Char → Bool
  | [], _ => true
  | _ :: _, [] => false
  | q :: qs, c :: cs => if q.toLower = c.toLower then isSubseq qs cs else isSubseq (q :: qs) cs

/-- Modelled from the spec: greedy leftmost positions at which the query
characters match inside the candidate (`none` when there is no match). -/
def subseqPositions : List Char → List Char → Nat → Option (List Nat)
  | [], _, _ => some []
  | _ :: _, [], _ => none
  | q :: qs, c :: cs, i =>
      if q.toLower = c.toLower then (subseqPositions qs cs (i + 1)).map (fun ps => i :: ps)
      else subseqPositions (q :: qs) cs (i + 1)

/-- Modelled from the spec: the match predicate of the fuzzy filter. -/
def fuzzyMatches (q cand : String) : Bool := isSubseq q.data cand.data

/-- Total size of the gaps between consecutive matched positions (zero
exactly when the match is one contiguous run, i.e. a substring match). -/
def gapPenalty : List Nat → Nat
  | [] => 0
  | [_] => 0
  | a :: b :: rest => (b - a - 1) + gapPenalty (b :: rest)

/-- Modelled from the spec: the primary component of the match score — the
total gap of the greedy leftmost match.  Ranking matches by ascending
`fuzzyGap` realises the spec's mandatory ordering contract: an exact
substring match (gap 0) outranks any scattered subsequence match of the same
query, and shorter gaps outrank longer gaps. -/
def fuzzyGap (q cand : String) : Nat :=
  match subseqPositions q.data cand.data 0 with
  | none => 0
  | some ps => gapPenalty ps

/-- Modelled from the spec: the secondary component of the match score — the
position of the first matched character; among equal gaps, earlier matches
rank higher ("score rewards ... early matches"). -/
def fuzzyFirst (q cand : String) : Nat :=
  match subseqPositions q.data cand.data 0 with
  | none => 0
  | some [] => 0
  | some (p :: _) => p

/-- One scored match: its rank components (gap, first position), original
corpus index, and the matched row. -/
structure MatchEntry where
  gap : Nat
  first : Nat
  idx : Nat
  item : User
  deriving DecidableEq

/-- `a` has a strictly higher match score than `b`: a smaller total gap, or
equal gaps and an earlier first match. -/
def better (a b : MatchEntry) : Prop :=
  a.gap < b.gap ∨ (a.gap = b.gap ∧ a.first < b.first)

/-- `a` and `b` have equal match scores. -/
def sameScore (a b : MatchEntry) : Prop := a.gap = b.gap ∧ a.first = b.first

instance decBetter (a b : MatchEntry) : Decidable (better a b) :=
  inferInstanceAs (Decidable (a.gap < b.gap ∨ (a.gap = b.gap ∧ a.first < b.first)))

instance decSameScore (a b : MatchEntry) : Decidable (sameScore a b) :=
  inferInstanceAs (Decidable (a.gap = b.gap ∧ a.first = b.first))

/-- The scored matches of a query against a corpus, tagged with their original
corpus indices in increasing order (the `arr`/`corpus` construction in
`fuzzyList.apply` composed with the library's match step). -/
def mkEntries (q : String) : Nat → List User → List MatchEntry
  | _, [] => []
  | i, u :: us =>
      if fuzzyMatches q (filterValue u) then
        ⟨fuzzyGap q (filterValue u), fuzzyFirst q (filterValue u), i, u⟩ ::
          mkEntries q (i + 1) us
      else mkEntries q (i + 1) us

/-- Stable insertion into a list that is sorted by descending score: the new
element (originally earlier) goes before every entry whose score it beats or
ties.  This is the comparison shape of the library's stable sort, which
compares scores only. -/
def insScore (x : MatchEntry) : List MatchEntry → List MatchEntry
  | [] => [x]
  | y :: ys => if better x y ∨ sameScore x y then x :: y :: ys else y :: insScore x ys

/-- Stable insertion sort by descending score (models `sort.Stable` on
match score inside the library's `Find`). -/
def isortScore : List MatchEntry → List MatchEntry
  | [] => []
  | x :: xs => insScore x (isortScore xs)

/-- Insertion into a list sorted by the lexicographic key
(score descending, corpus index ascending). -/
def insLex (x : MatchEntry) : List MatchEntry → List MatchEntry
  | [] => [x]
  | y :: ys =>
      if better x y ∨ (sameScore x y ∧ x.idx < y.idx) then x :: y :: ys
      else y :: insLex x ys

/-- Insertion sort by the lexicographic key (score descending, corpus index
ascending). -/
def isortLex : List MatchEntry → List MatchEntry
  | [] => []
  | x :: xs => insLex x (isortLex xs)

/-- The view computed by one `fuzzyList.apply` call for a non-empty query:
score the matching corpus entries, stable-sort them by descending score, and
project the rows back out (the `matches`/`fl.view` loop in the source). -/
def fuzzyFindView (q : String) (all : List User) : List User :=
  (isortScore (mkEntries q 0 all)).map MatchEntry.item

/-- Modelled from the spec: the view is the subsequence of corpus entries
whose searchable text fuzzy-matches the query, ordered by descending match
score, ties broken by original corpus order. -/
def specFuzzyView (q : String) (all : List User) : List User :=
  (isortLex (mkEntries q 0 all)).map MatchEntry.item

/-- `fuzzyList` in the source: corpus, current view, current query. -/
structure FuzzyList where
  all : List User
  view : List User
  query : String
  deriving DecidableEq

/-- `fuzzyList.apply` in the source: store the query; an empty (after
trimming) query shows the full corpus (`fl.view = fl.all`, a slice-header
copy that makes `view` alias `all`'s backing array).  For a non-empty query
the source does `fl.view = fl.view[:0]` and appends the matches in place.
In every reachable state (`setAll` runs before any non-empty apply, and each
branch re-establishes it) `fl.view` aliases `fl.all`'s backing array at
offset 0 with capacity `len(fl.all)`, so those appends overwrite the prefix
of `fl.all`'s array: afterwards the corpus reads back as the matches
followed by its own untouched tail.  The matches themselves are computed
from the `arr` snapshot taken before the truncation, so the view is correct
with respect to the pre-call corpus. -/
def FuzzyList.apply (q : String) (fl : FuzzyList) : FuzzyList :=
  if goTrim q = "" then { fl with query := q, view := fl.all }
  else
    let v := fuzzyFindView q fl.all
    { all := v ++ fl.all.drop v.length, view := v, query := q }

/-- `fuzzyList.setAll` in the source: replace the corpus, then `apply("")`. -/
def FuzzyList.setAll (items : List User) (fl : FuzzyList) : FuzzyList :=
  FuzzyList.apply "" { fl with all := items }

/-! ### Identity store

The store is SQLite behind `database/sql`; its state is modelled as the list
of rows together with the `AUTOINCREMENT` counter, and the connection
additionally remembers SQLite's `last_insert_rowid()` (which `LastInsertId`
reports, and which an ignored `INSERT OR IGNORE` leaves unchanged).  I/O
failure of each operation is modelled by a per-operation fault flag on the
connection; a faulting call returns an error and leaves the rows unchanged. -/

/-- The persisted table: rows plus the `AUTOINCREMENT` counter (`UNIQUE(name,
email)` is a well-formedness invariant, `Store.WF` below). -/
structure Store where
  rows : List User
  nextId : Int
  deriving DecidableEq

/-- A database connection: the table, the connection's
`last_insert_rowid()`, and fault flags modelling I/O failure of the three
operations. -/
structure DBConn where
  store : Store
  lastId : Int
  failInsert : Bool
  failDelete : Bool
  failList : Bool
  deriving DecidableEq

/-- Does a row carry exactly this (name, email) pair? -/
def pairEq (n e : String) (u : User) : Bool := u.name == n && u.email == e

/-- Result of `Store.insertUser`: the connection afterwards, the returned
int64, and the returned error. -/
structure InsertResult where
  conn : DBConn
  ret : Int
  err : Option String
  deriving DecidableEq

/-- `Store.insertUser` in the source: `INSERT OR IGNORE` of the trimmed pair,
then `LastInsertId`.  When the pair already exists the insert is ignored and
the connection's previous `last_insert_rowid()` is returned; no error is
signalled. -/
def DBConn.insertUser (c : DBConn) (name email : String) : InsertResult :=
  if c.failInsert then ⟨c, 0, some "insert failed"⟩
  else
    let n := goTrim name
    let e := goTrim email
    if c.store.rows.any (pairEq n e) then ⟨c, c.lastId, none⟩
    else
      let id := c.store.nextId
      ⟨{ c with store := { rows := c.store.rows ++ [⟨id, n, e⟩], nextId := id + 1 },
                lastId := id }, id, none⟩

/-- `Store.deleteUser` in the source: delete the row with this id (a missing
id is a no-op, not an error). -/
def DBConn.deleteUser (c : DBConn) (id : Int) : DBConn × Option String :=
  if c.failDelete then (c, some "delete failed")
  else ({ c with store := { c.store with rows := c.store.rows.filter (fun u => u.id != id) } },
        none)

/-- Strict lexicographic order on character lists (codepoint order). -/
def lexLtChars : List Char → List Char → Bool
  | [], [] => false
  | [], _ :: _ => true
  | _ :: _, [] => false
  | a :: as, b :: bs => if a < b then true else if b < a then false else lexLtChars as bs

/-- Stable insertion for the case-insensitive name sort of `allUsers`
(`ORDER BY name COLLATE NOCASE`): ties keep row order. -/
def insByName (x : User) : List User → List User
  | [] => [x]
  | y :: ys =>
      if lexLtChars (goLower y.name).data (goLower x.name).data then y :: insByName x ys
      else x :: y :: ys

/-- Stable insertion sort by case-folded name. -/
def sortByNameNocase : List User → List User
  | [] => []
  | x :: xs => insByName x (sortByNameNocase xs)

/-- `Store.allUsers` in the source: all rows ordered by name, case
insensitively.  On failure Go's caller receives a nil slice together with the
error. -/
def DBConn.allUsers (c : DBConn) : List User × Option String :=
  if c.failList then ([], some "list failed")
  else (sortByNameNocase c.store.rows, none)

/-- Well-formedness maintained by the schema: the `UNIQUE(name, email)`
constraint, and the `AUTOINCREMENT` counter strictly above every row id. -/
def Store.WF (s : Store) : Prop :=
  s.rows.Pairwise (fun a b => ¬(a.name = b.name ∧ a.email = b.email)) ∧
  ∀ u ∈ s.rows, u.id < s.nextId

/-- All three fault flags off: every store call succeeds. -/
def DBConn.healthy (c : DBConn) : Prop :=
  c.failInsert = false ∧ c.failDelete = false ∧ c.failList = false

/-! ### Session state machine

`model` and its bubbletea update functions.  Text inputs keep their value and
focus flag; the item list keeps its items and cursor index; key events are an
inductive type whose bubbletea key-name strings drive the `key.Matches`
tests exactly as `newKeymap` binds them.  Subprocess interaction
(`gitInRepo`, `setGitUser`) is an environment parameter, and each step
reports the config-write subprocess invocations it performs as effects. -/

/-- A bubbletea `textinput`: current value and focus flag.  A focused input
appends typed runes and removes the last character on backspace; a blurred
input ignores keys. -/
structure TextInput where
  value : String
  focused : Bool
  deriving DecidableEq

/-- A key event, as bubbletea delivers it. -/
inductive Key
  | char (c : Char)
  | enter
  | esc
  | backspace
  | del
  | up
  | down
  | ctrlC
  deriving DecidableEq

/-- The bubbletea name of a key (its `String()`); rune keys are their text. -/
def keyStr : Key → String
  | .char c => String.singleton c
  | .enter => "enter"
  | .esc => "esc"
  | .backspace => "backspace"
  | .del => "delete"
  | .up => "up"
  | .down => "down"
  | .ctrlC => "ctrl+c"

/-- `key.Matches`: the event's name is one of the binding's key names. -/
def kmatch (k : Key) (ks : List String) : Bool := ks.contains (keyStr k)

/-- Is this a `tea.KeyRunes` event? -/
def isRunes : Key → Bool
  | .char _ => true
  | _ => false

/-- The key bindings of `newKeymap`. -/
def quitKeys : List String := ["q", "ctrl+c"]

/-- Keys of the Add binding. -/
def addKeys : List String := ["a"]

/-- Keys of the Edit binding. -/
def editKeys : List String := ["e"]

/-- Keys of the Delete binding (note: `del` is not the name of any real key
event, whose name is `delete`, so only backspace actually matches). -/
def deleteKeys : List String := ["del", "backspace"]

/-- Keys of the Global binding. -/
def globalKeys : List String := ["g"]

/-- Keys of the Local binding. -/
def localKeys : List String := ["l"]

/-- Keys of the Filter binding. -/
def filterKeys : List String := ["/"]

/-- Keys of the Clear binding. -/
def clearKeys : List String := ["esc"]

/-- Keys of the Help binding. -/
def helpKeys : List String := ["?"]

/-- Keystroke handling of a `textinput`: focused inputs append runes and
delete on backspace, blurred inputs ignore everything. -/
def TextInput.update (t : TextInput) (k : Key) : TextInput :=
  if t.focused then
    match k with
    | .char c => { t with value := t.value.push c }
    | .backspace => { t with value := ⟨t.value.data.dropLast⟩ }
    | _ => t
  else t

/-- The interaction modes (`modeList`, `modeAdd`, `modeEdit`). -/
inductive Mode
  | list
  | add
  | edit
  deriving DecidableEq

/-- Observable external effects of one step. -/
inductive Eff
  | quit
  | gitSet (scope : String) (u : User)
  deriving DecidableEq

/-- The subprocess environment of one step: whether `git rev-parse` says the
working directory is inside a repo, and the outcome `setGitUser` would report
(`none` = success). -/
structure Env where
  inRepo : Bool
  gitErr : Option String
  deriving DecidableEq

/-- The `model` of the source: store connection, item list (items plus
cursor), filter input, form inputs, fuzzy filter, mode, status and error
messages.  (`help`, `keys`, `width`, `height` only affect rendering and are
omitted.) -/
structure Model where
  conn : DBConn
  listItems : List User
  listIndex : Nat
  filter : TextInput
  form1 : TextInput
  form2 : TextInput
  fuzzy : FuzzyList
  mode : Mode
  status : String
  errMsg : String
  deriving DecidableEq

/-- A step's outcome: the next model and the effects performed. -/
structure StepRes where
  model : Model
  effs : List Eff
  deriving DecidableEq

/-- `list.SelectedItem()`: the item under the cursor, if any. -/
def Model.selectedItem (m : Model) : Option User := m.listItems.get? m.listIndex

/-- `model.syncListView`: push the fuzzy view into the displayed list. -/
def Model.syncListView (m : Model) : Model := { m with listItems := m.fuzzy.view }

/-- Cursor movement of the underlying list widget (up/down and the j/k
aliases, clamped, no wraparound); all other unbound keys are ignored. -/
def listNav (m : Model) (k : Key) : Model :=
  match k with
  | .up => { m with listIndex := m.listIndex - 1 }
  | .down => { m with listIndex := min (m.listIndex + 1) (m.listItems.length - 1) }
  | .char c =>
      if c = 'k' then { m with listIndex := m.listIndex - 1 }
      else if c = 'j' then { m with listIndex := min (m.listIndex + 1) (m.listItems.length - 1) }
      else m
  | _ => m

/-- `model.applySelected` in the source: apply the selected identity at the
given scope.  Local scope first requires `gitInRepo()`; the config write is
reported as an effect and its failure text surfaces as `errMsg`. -/
def Model.applySelected (m : Model) (scope : String) (env : Env) : StepRes :=
  match m.selectedItem with
  | none => ⟨m, []⟩
  | some it =>
      if scope = "local" ∧ env.inRepo = false then
        ⟨{ m with errMsg := "not inside a git repo (local set aborted)" }, []⟩
      else
        match env.gitErr with
        | some e => ⟨{ m with errMsg := e }, [Eff.gitSet scope it]⟩
        | none =>
            ⟨{ m with status := "set " ++ scope ++ ": " ++ it.name ++ " <" ++ it.email ++ ">" },
             [Eff.gitSet scope it]⟩

/-- `model.updateListKeys` in the source, branch for branch and in the same
order: quit, help, filter focus, rune typing into a focused filter, enter
(apply local), esc (clear a focused filter), add, delete, edit, global,
local, and finally list-widget navigation. -/
def Model.updateListKeys (m : Model) (k : Key) (env : Env) : StepRes :=
  if kmatch k quitKeys then ⟨m, [Eff.quit]⟩
  else if kmatch k helpKeys then
    ⟨{ m with status :=
        "keys: a add • g set global • l set local • / filter • del delete • e edit • enter=set local" },
     []⟩
  else if kmatch k filterKeys then
    ⟨{ m with filter := { value := "", focused := true }, mode := Mode.list,
              status := "type to filter, enter to apply, esc to clear" }, []⟩
  else if isRunes k && m.filter.focused then
    let f := m.filter.update k
    let fz := FuzzyList.apply f.value m.fuzzy
    ⟨({ m with filter := f, fuzzy := fz }).syncListView, []⟩
  else if k = Key.enter then m.applySelected "local" env
  else if k = Key.esc ∧ m.filter.focused = true then
    let fz := FuzzyList.apply "" m.fuzzy
    ⟨({ m with filter := { value := "", focused := false }, fuzzy := fz,
               status := "filter cleared" }).syncListView, []⟩
  else if kmatch k addKeys then
    ⟨{ m with mode := Mode.add, form1 := { value := "", focused := true },
              form2 := { m.form2 with value := "" },
              status := "add user: enter to next/save, esc to cancel" }, []⟩
  else if kmatch k deleteKeys then
    match m.selectedItem with
    | none => ⟨m, []⟩
    | some it =>
        let d := m.conn.deleteUser it.id
        let l := d.1.allUsers
        let fz := FuzzyList.setAll l.1 m.fuzzy
        ⟨({ m with conn := d.1, fuzzy := fz, status := "deleted" }).syncListView, []⟩
  else if kmatch k editKeys then
    match m.selectedItem with
    | none => ⟨m, []⟩
    | some it =>
        ⟨{ m with mode := Mode.edit, form1 := { value := it.name, focused := true },
                  form2 := { m.form2 with value := it.email },
                  status := "edit user: enter cycles fields, esc cancels" }, []⟩
  else if kmatch k globalKeys then m.applySelected "global" env
  else if kmatch k localKeys then m.applySelected "local" env
  else ⟨listNav m k, []⟩

/-- The save epilogue shared by the add and edit submit paths: reload the
full snapshot (the error discarded with `users, _ :=` in the source), reset
the fuzzy corpus, return to browse with status `saved`. -/
def Model.saveReload (m : Model) : StepRes :=
  let l := m.conn.allUsers
  let fz := FuzzyList.setAll l.1 m.fuzzy
  ⟨({ m with fuzzy := fz, mode := Mode.list, status := "saved" }).syncListView, []⟩

/-- `model.updateFormKeys` in the source: esc cancels; enter advances from the
name field, otherwise validates and submits (add inserts; edit deletes the
selected row — error discarded — then inserts); any other key goes to both
form inputs. -/
def Model.updateFormKeys (m : Model) (k : Key) : StepRes :=
  if kmatch k clearKeys then ⟨{ m with mode := Mode.list, status := "cancelled" }, []⟩
  else if k = Key.enter then
    if m.form1.focused then
      ⟨{ m with form1 := { m.form1 with focused := false },
                form2 := { m.form2 with focused := true } }, []⟩
    else
      let name := goTrim m.form1.value
      let email := goTrim m.form2.value
      if name = "" ∨ email = "" ∨ email.data.contains '@' = false then
        ⟨{ m with errMsg := "invalid name/email" }, []⟩
      else if m.mode = Mode.add then
        let r := m.conn.insertUser name email
        match r.err with
        | some e => ⟨{ m with conn := r.conn, errMsg := e }, []⟩
        | none => Model.saveReload { m with conn := r.conn }
      else
        let c1 := match m.selectedItem with
          | some it => (m.conn.deleteUser it.id).1
          | none => m.conn
        let r := c1.insertUser name email
        match r.err with
        | some e => ⟨{ m with conn := r.conn, errMsg := e }, []⟩
        | none => Model.saveReload { m with conn := r.conn }
  else
    ⟨{ m with form1 := m.form1.update k, form2 := m.form2.update k }, []⟩

/-- The `Update` dispatcher restricted to key messages: browse keys in list
mode, form keys in the form modes. -/
def Model.update (m : Model) (k : Key) (env : Env) : StepRes :=
  match m.mode with
  | Mode.list => m.updateListKeys k env
  | _ => m.updateFormKeys k

/-! ### Concrete fixtures used by witnesses and counterexamples -/

/-- A sample row. -/
def exAlice : User := ⟨1, "Alice", "a@x.com"⟩

/-- A second sample row. -/
def exBob : User := ⟨2, "Bob", "b@x.com"⟩

/-- A blurred empty text input. -/
def exTI : TextInput := ⟨"", false⟩

/-- An environment inside a repo with a succeeding config write. -/
def exEnv : Env := ⟨true, none⟩

/-- An environment outside any repo. -/
def exEnvNoRepo : Env := ⟨false, none⟩

/-- A healthy connection holding Alice and Bob. -/
def exConn : DBConn := ⟨⟨[exAlice, exBob], 3⟩, 0, false, false, false⟩

/-- A healthy connection whose last insert on the connection was row 2. -/
def exDupConn : DBConn := ⟨⟨[exAlice, exBob], 3⟩, 2, false, false, false⟩

/-- A browse-mode session over Alice and Bob, no filter. -/
def exBrowse : Model :=
  ⟨exConn, [exAlice, exBob], 0, exTI, exTI, exTI,
   ⟨[exAlice, exBob], [exAlice, exBob], ""⟩, Mode.list, "", ""⟩

/-- An add form whose email buffer lacks an `@`. -/
def exBadForm : Model :=
  ⟨exConn, [exAlice, exBob], 0, exTI, ⟨"Carl", false⟩, ⟨"cx.com", true⟩,
   ⟨[exAlice, exBob], [exAlice, exBob], ""⟩, Mode.add, "", ""⟩

/-- An add form with valid untrimmed buffers. -/
def exGoodForm : Model :=
  ⟨exConn, [exAlice, exBob], 0, exTI, ⟨" Carl ", false⟩, ⟨" c@x.com ", true⟩,
   ⟨[exAlice, exBob], [exAlice, exBob], ""⟩, Mode.add, "", ""⟩

/-- A browse session with the active fuzzy query `ali`, Alice selected. -/
def exFilterModel : Model :=
  ⟨exConn, [exAlice], 0, ⟨"ali", true⟩, exTI, exTI,
   ⟨[exAlice, exBob], [exAlice], "ali"⟩, Mode.list, "", ""⟩

/-- A browse session with the active fuzzy query `bo`, Bob selected. -/
def exFilt2 : Model :=
  ⟨exConn, [exBob], 0, ⟨"bo", true⟩, exTI, exTI,
   ⟨[exAlice, exBob], [exBob], "bo"⟩, Mode.list, "", ""⟩

/-- A connection whose delete and list calls fail. -/
def exFailConn : DBConn := ⟨⟨[exAlice, exBob], 3⟩, 0, false, true, true⟩

/-- A browse session over the failing connection. -/
def exFailModel : Model :=
  ⟨exFailConn, [exAlice, exBob], 0, exTI, exTI, exTI,
   ⟨[exAlice, exBob], [exAlice, exBob], ""⟩, Mode.list, "", ""⟩

/-- A connection whose insert calls fail. -/
def exFailInsConn : DBConn := ⟨⟨[exAlice, exBob], 3⟩, 0, true, false, false⟩

/-- A valid add form over the insert-failing connection. -/
def exFailInsForm : Model :=
  ⟨exFailInsConn, [exAlice, exBob], 0, exTI, ⟨"Carl", false⟩, ⟨"c@x.com", true⟩,
   ⟨[exAlice, exBob], [exAlice, exBob], ""⟩, Mode.add, "", ""⟩

/-- An edit form for Alice (selected) whose buffers now hold Bob's exact
pair. -/
def exEditForm : Model :=
  ⟨exConn, [exAlice, exBob], 0, exTI, ⟨"Bob", false⟩, ⟨"b@x.com", true⟩,
   ⟨[exAlice, exBob], [exAlice, exBob], ""⟩, Mode.edit, "", ""⟩

/-- An edit form (Alice selected) over the insert-failing connection. -/
def exFailInsEdit : Model :=
  ⟨exFailInsConn, [exAlice, exBob], 0, exTI, ⟨"Bob", false⟩, ⟨"b@x.com", true⟩,
   ⟨[exAlice, exBob], [exAlice, exBob], ""⟩, Mode.edit, "", ""⟩

/-- A connection whose list (reload) calls fail while deletes succeed. -/
def exFailListConn : DBConn := ⟨⟨[exAlice, exBob], 3⟩, 0, false, false, true⟩

/-- A browse session over the reload-failing connection. -/
def exFailListModel : Model :=
  ⟨exFailListConn, [exAlice, exBob], 0, exTI, exTI, exTI,
   ⟨[exAlice, exBob], [exAlice, exBob], ""⟩, Mode.list, "", ""⟩

/-- A browse session with the filter focused and still empty. -/
def exFreshFilter : Model :=
  ⟨exConn, [exAlice, exBob], 0, ⟨"", true⟩, exTI, exTI,
   ⟨[exAlice, exBob], [exAlice, exBob], ""⟩, Mode.list, "", ""⟩

/-! ### The stable score sort equals the lexicographic sort

`sort.Stable` by descending score, applied to matches listed in corpus order,
orders them by descending score with ties in corpus order.  This is proved by
showing the score-only stable insertion sort coincides with the insertion
sort by the lexicographic key (score descending, corpus index ascending) on
any list whose indices are strictly increasing. -/

theorem mem_insLex (y x : MatchEntry) (l : List MatchEntry) :
    y ∈ insLex x l ↔ y = x ∨ y ∈ l := by
  induction l with
  | nil => simp [insLex]
  | cons z zs ih =>
      by_cases hc : better x z ∨ (sameScore x z ∧ x.idx < z.idx)
      · simp [insLex, hc]
      · simp only [insLex, if_neg hc, List.mem_cons, ih]
        tauto

theorem mem_isortLex (y : MatchEntry) (l : List MatchEntry) :
    y ∈ isortLex l ↔ y ∈ l := by
  induction l with
  | nil => simp [isortLex]
  | cons x xs ih => simp [isortLex, mem_insLex, ih]

theorem insScore_eq_insLex (x : MatchEntry) (l : List MatchEntry)
    (h : ∀ y ∈ l, x.idx < y.idx) : insScore x l = insLex x l := by
  induction l with
  | nil => rfl
  | cons y ys ih =>
      have hy : x.idx < y.idx := h y (by simp)
      by_cases hc : better x y ∨ sameScore x y
      · have hc2 : better x y ∨ (sameScore x y ∧ x.idx < y.idx) :=
          hc.elim Or.inl (fun hs => Or.inr ⟨hs, hy⟩)
        simp [insScore, insLex, hc, hc2]
      · have hc2 : ¬(better x y ∨ (sameScore x y ∧ x.idx < y.idx)) :=
          fun hh => hc (hh.elim Or.inl (fun hp => Or.inr hp.1))
        simp only [insScore, insLex, if_neg hc, if_neg hc2, List.cons.injEq, true_and]
        exact ih (fun z hz => h z (List.mem_cons_of_mem y hz))

theorem isortScore_eq_isortLex (l : List MatchEntry)
    (h : l.Pairwise (fun a b => a.idx < b.idx)) : isortScore l = isortLex l := by
  induction l with
  | nil => rfl
  | cons x xs ih =>
      have hp := List.pairwise_cons.mp h
      simp only [isortScore, isortLex]
      rw [ih hp.2]
      exact insScore_eq_insLex x (isortLex xs)
        (fun y hy => hp.1 y ((mem_isortLex y xs).mp hy))

theorem mkEntries_le_idx (q : String) (us : List User) :
    ∀ (i : Nat), ∀ e ∈ mkEntries q i us, i ≤ e.idx := by
  induction us with
  | nil => intro i e he; simp [mkEntries] at he
  | cons u us ih =>
      intro i e he
      by_cases hm : fuzzyMatches q (filterValue u)
      · simp only [mkEntries, if_pos hm] at he
        rcases List.mem_cons.mp he with h1 | h2
        · subst h1; exact Nat.le_refl i
        · exact Nat.le_of_succ_le (ih (i + 1) e h2)
      · simp only [mkEntries, if_neg hm] at he
        exact Nat.le_of_succ_le (ih (i + 1) e he)

theorem mkEntries_pairwise (q : String) (us : List User) :
    ∀ (i : Nat), (mkEntries q i us).Pairwise (fun a b => a.idx < b.idx) := by
  induction us with
  | nil => intro i; simp [mkEntries]
  | cons u us ih =>
      intro i
      by_cases hm : fuzzyMatches q (filterValue u)
      · simp only [mkEntries, if_pos hm]
        refine List.pairwise_cons.mpr ⟨?_, ih (i + 1)⟩
        intro e he
        have h1 := mkEntries_le_idx q us (i + 1) e he
        show i < e.idx
        omega
      · simp only [mkEntries, if_neg hm]
        exact ih (i + 1)

/-- The per-call view of the fuzzy filter coincides with the spec's
description: matching entries ordered by descending score, ties broken by
original corpus order. -/
theorem fuzzyFindView_eq_specFuzzyView (q : String) (all : List User) :
    fuzzyFindView q all = specFuzzyView q all := by
  unfold fuzzyFindView specFuzzyView
  rw [isortScore_eq_isortLex (mkEntries q 0 all) (mkEntries_pairwise q all 0)]

/-- The modelled score obeys the spec's ordering contract, checked on the
query `ab`: a late exact substring match (`xxxab`, gap 0) outranks an early
scattered match (`a.b`, gap 1), and the shorter gap (`a.b`) outranks the
longer one (`a........b`, gap 8). -/
theorem score_contract_examples :
    fuzzyGap "ab" "xxxab" = 0 ∧ fuzzyGap "ab" "a.b" = 1 ∧
    fuzzyGap "ab" "a........b" = 8 ∧
    better ⟨fuzzyGap "ab" "xxxab", fuzzyFirst "ab" "xxxab", 1, exBob⟩
      ⟨fuzzyGap "ab" "a.b", fuzzyFirst "ab" "a.b", 0, exAlice⟩ ∧
    better ⟨fuzzyGap "ab" "a.b", fuzzyFirst "ab" "a.b", 0, exAlice⟩
      ⟨fuzzyGap "ab" "a........b", fuzzyFirst "ab" "a........b", 1, exBob⟩ := by
  decide

/-! ### Store-operation lemmas -/

theorem insertUser_fail (c : DBConn) (name email : String) (h : c.failInsert = true) :
    c.insertUser name email = ⟨c, 0, some "insert failed"⟩ := by
  unfold DBConn.insertUser
  rw [if_pos h]

theorem insertUser_dup (c : DBConn) (name email : String) (hfi : c.failInsert = false)
    (hex : c.store.rows.any (pairEq (goTrim name) (goTrim email)) = true) :
    c.insertUser name email = ⟨c, c.lastId, none⟩ := by
  unfold DBConn.insertUser
  rw [if_neg (by simp [hfi])]
  simp only [hex, if_true]

theorem insertUser_fresh (c : DBConn) (name email : String) (hfi : c.failInsert = false)
    (hex : c.store.rows.any (pairEq (goTrim name) (goTrim email)) = false) :
    c.insertUser name email =
      ⟨⟨⟨c.store.rows ++ [⟨c.store.nextId, goTrim name, goTrim email⟩], c.store.nextId + 1⟩,
        c.store.nextId, c.failInsert, c.failDelete, c.failList⟩, c.store.nextId, none⟩ := by
  unfold DBConn.insertUser
  rw [if_neg (by simp [hfi])]
  simp only [hex, Bool.false_eq_true, if_false]

theorem insertUser_err_none (c : DBConn) (name email : String) (hfi : c.failInsert = false) :
    (c.insertUser name email).err = none := by
  by_cases hex : c.store.rows.any (pairEq (goTrim name) (goTrim email)) = true
  · rw [insertUser_dup c name email hfi hex]
  · rw [insertUser_fresh c name email hfi (by simpa using hex)]

theorem deleteUser_ok (c : DBConn) (id : Int) (h : c.failDelete = false) :
    c.deleteUser id =
      ({ c with store := { c.store with rows := c.store.rows.filter (fun u => u.id != id) } },
       none) := by
  unfold DBConn.deleteUser
  rw [if_neg (by simp [h])]

theorem deleteUser_fst_flags (c : DBConn) (id : Int) :
    ((c.deleteUser id).1).failInsert = c.failInsert ∧
    ((c.deleteUser id).1).failDelete = c.failDelete ∧
    ((c.deleteUser id).1).failList = c.failList := by
  unfold DBConn.deleteUser
  by_cases h : c.failDelete = true
  · rw [if_pos h]; exact ⟨rfl, rfl, rfl⟩
  · rw [if_neg h]; exact ⟨rfl, rfl, rfl⟩

theorem pairEq_iff (n e : String) (u : User) :
    pairEq n e u = true ↔ u.name = n ∧ u.email = e := by
  simp [pairEq]

/-- Under the uniqueness invariant, at most one row carries a given pair. -/
theorem countP_pair_le_one (n e : String) (l : List User)
    (h : l.Pairwise (fun a b => ¬(a.name = b.name ∧ a.email = b.email))) :
    l.countP (pairEq n e) ≤ 1 := by
  induction l with
  | nil => simp
  | cons a l ih =>
      rcases List.pairwise_cons.mp h with ⟨ha, hl⟩
      by_cases hp : pairEq n e a = true
      · rw [List.countP_cons_of_pos _ _ hp]
        have hz : l.countP (pairEq n e) = 0 := by
          rw [List.countP_eq_zero]
          intro b hb hpb
          have h1 := (pairEq_iff n e a).mp hp
          have h2 := (pairEq_iff n e b).mp hpb
          exact ha b hb ⟨h1.1.trans h2.1.symm, h1.2.trans h2.2.symm⟩
        omega
      · rw [List.countP_cons_of_neg _ _ hp]
        exact ih hl

theorem countP_pair_pos_of_any (n e : String) (l : List User)
    (hex : l.any (pairEq n e) = true) : 1 ≤ l.countP (pairEq n e) := by
  rcases List.any_eq_true.mp hex with ⟨u, hu, hp⟩
  exact Nat.succ_le_of_lt (List.countP_pos_iff.mpr ⟨u, hu, hp⟩)

theorem countP_pair_eq_one (n e : String) (l : List User)
    (h : l.Pairwise (fun a b => ¬(a.name = b.name ∧ a.email = b.email)))
    (hex : l.any (pairEq n e) = true) : l.countP (pairEq n e) = 1 :=
  Nat.le_antisymm (countP_pair_le_one n e l h) (countP_pair_pos_of_any n e l hex)

/-! ### Reduction lemmas for `apply` and per-branch state bookkeeping -/

theorem apply_query (q : String) (fl : FuzzyList) : (FuzzyList.apply q fl).query = q := by
  by_cases h : goTrim q = "" <;> simp [FuzzyList.apply, h]

theorem apply_view (q : String) (fl : FuzzyList) :
    (FuzzyList.apply q fl).view =
      (if goTrim q = "" then fl.all else fuzzyFindView q fl.all) := by
  by_cases h : goTrim q = "" <;> simp [FuzzyList.apply, h]

/-- A non-empty-query `apply` computes the view from the pre-call corpus and
overwrites the retained corpus's prefix with it (the slice aliasing of the
source). -/
theorem apply_nonempty (q : String) (fl : FuzzyList) (h : goTrim q ≠ "") :
    FuzzyList.apply q fl =
      ⟨fuzzyFindView q fl.all ++ fl.all.drop (fuzzyFindView q fl.all).length,
       fuzzyFindView q fl.all, q⟩ := by
  unfold FuzzyList.apply
  rw [if_neg h]

/-- C9: for every corpus and query, an empty-after-trimming query yields the
full corpus in source order, and otherwise the view is exactly the
subsequence of corpus entries whose searchable text `name <email>`
fuzzy-matches the query, ordered by descending match score with ties broken
by original corpus order. -/
theorem apply_view_follows_spec (q : String) (fl : FuzzyList) :
    (FuzzyList.apply q fl).view =
      (if goTrim q = "" then fl.all else specFuzzyView q fl.all) := by
  rw [apply_view]
  by_cases h : goTrim q = ""
  · rw [if_pos h, if_pos h]
  · rw [if_neg h, if_neg h, fuzzyFindView_eq_specFuzzyView]

/-- C6: store insert trims both fields and is idempotent — inserting the same
trimmed pair a second time performs no write and signals no error, leaving
exactly one stored row for the pair. -/
theorem insert_trims_and_idempotent (c : DBConn) (name email : String)
    (hfi : c.failInsert = false) (hwf : c.store.WF) :
    ((c.insertUser name email).err = none) ∧
    ((c.insertUser name email).conn.store.rows =
      (if c.store.rows.any (pairEq (goTrim name) (goTrim email)) then c.store.rows
       else c.store.rows ++ [⟨c.store.nextId, goTrim name, goTrim email⟩])) ∧
    (((c.insertUser name email).conn.insertUser name email).err = none) ∧
    (((c.insertUser name email).conn.insertUser name email).conn.store =
      (c.insertUser name email).conn.store) ∧
    ((c.insertUser name email).conn.store.rows.countP
        (pairEq (goTrim name) (goTrim email)) = 1) := by
  by_cases hex : c.store.rows.any (pairEq (goTrim name) (goTrim email)) = true
  · have h1 := insertUser_dup c name email hfi hex
    refine ⟨?_, ?_, ?_, ?_, ?_⟩
    · simp only [h1]
    · simp only [h1, if_pos hex]
    · simp only [h1]
    · simp only [h1]
    · simp only [h1]
      exact countP_pair_eq_one _ _ _ hwf.1 hex
  · have hexf : c.store.rows.any (pairEq (goTrim name) (goTrim email)) = false := by
      simpa using hex
    have h1 := insertUser_fresh c name email hfi hexf
    have hnew : pairEq (goTrim name) (goTrim email)
        ⟨c.store.nextId, goTrim name, goTrim email⟩ = true := by
      simp [pairEq]
    have hany2 : (c.store.rows ++ [(⟨c.store.nextId, goTrim name, goTrim email⟩ : User)]).any
        (pairEq (goTrim name) (goTrim email)) = true := by
      rw [List.any_eq_true]
      exact ⟨(⟨c.store.nextId, goTrim name, goTrim email⟩ : User),
        List.mem_append_right _ (List.mem_singleton_self _), hnew⟩
    refine ⟨?_, ?_, ?_, ?_, ?_⟩
    · simp only [h1]
    · simp only [h1, hexf, Bool.false_eq_true, if_false]
    · simp only [h1]
      exact insertUser_err_none _ name email hfi
    · simp only [h1]
      rw [insertUser_dup
        (⟨⟨c.store.rows ++ [(⟨c.store.nextId, goTrim name, goTrim email⟩ : User)],
           c.store.nextId + 1⟩,
          c.store.nextId, c.failInsert, c.failDelete, c.failList⟩ : DBConn) name email hfi hany2]
    · simp only [h1]
      rw [List.countP_append]
      have hz : c.store.rows.countP (pairEq (goTrim name) (goTrim email)) = 0 := by
        rw [List.countP_eq_zero]
        intro a ha hpa
        exact (List.any_eq_false.mp hexf) a ha hpa
      have ho : ([(⟨c.store.nextId, goTrim name, goTrim email⟩ : User)]).countP
          (pairEq (goTrim name) (goTrim email)) = 1 := by
        rw [List.countP_cons_of_pos _ _ hnew, List.countP_nil]
      omega

/-- C6 witness: inserting `(" Carl ", " c@x.com ")` twice into the sample
store stores the trimmed pair exactly once and the second insert is a
no-op. -/
theorem insert_trims_and_idempotent_witness :
    (((exConn.insertUser " Carl " " c@x.com ").conn.insertUser " Carl " " c@x.com ").conn.store =
      (exConn.insertUser " Carl " " c@x.com ").conn.store) ∧
    ((exConn.insertUser " Carl " " c@x.com ").conn.store.rows.countP
        (pairEq (goTrim " Carl ") (goTrim " c@x.com ")) = 1) := by
  have h := insert_trims_and_idempotent exConn " Carl " " c@x.com " (by decide)
    (by refine ⟨?_, ?_⟩ <;> decide)
  exact ⟨h.2.2.2.1, h.2.2.2.2⟩

/-- C7: a submit whose trimmed name is empty, trimmed email is empty, or
whose email lacks `@` only sets the error message: the mode, both buffers and
the store are untouched and no effect is performed. -/
theorem invalid_submit_rejected (m : Model)
    (hfoc : m.form1.focused = false)
    (hbad : goTrim m.form1.value = "" ∨ goTrim m.form2.value = "" ∨
        (goTrim m.form2.value).data.contains '@' = false) :
    m.updateFormKeys Key.enter = ⟨{ m with errMsg := "invalid name/email" }, []⟩ := by
  unfold Model.updateFormKeys
  rw [if_neg (show ¬(kmatch Key.enter clearKeys = true) from by decide)]
  rw [if_pos (rfl : Key.enter = Key.enter)]
  rw [if_neg (show ¬(m.form1.focused = true) from by simp [hfoc])]
  simp only [if_pos hbad]

/-- C7 witness: submitting an email without `@` from the sample add form is
rejected with the buffers and store intact. -/
theorem invalid_submit_rejected_witness :
    exBadForm.updateFormKeys Key.enter =
      ⟨{ exBadForm with errMsg := "invalid name/email" }, []⟩ :=
  invalid_submit_rejected exBadForm (by decide) (by decide)

/-- C8: a local-scope apply with a valid selection outside a tracked
workspace performs no config-write effect and only sets the error message;
store and all other session state are unchanged. -/
theorem local_apply_outside_repo_no_write (m : Model) (env : Env) (it : User)
    (hsel : m.selectedItem = some it) (hrepo : env.inRepo = false) :
    m.applySelected "local" env =
      ⟨{ m with errMsg := "not inside a git repo (local set aborted)" }, []⟩ := by
  unfold Model.applySelected
  simp [hsel, hrepo]

/-- C8 witness: the sample browse session outside a repo. -/
theorem local_apply_outside_repo_witness :
    exBrowse.applySelected "local" exEnvNoRepo =
      ⟨{ exBrowse with errMsg := "not inside a git repo (local set aborted)" }, []⟩ :=
  local_apply_outside_repo_no_write exBrowse exEnvNoRepo exAlice (by decide) (by decide)

/-- C10: when the inserted pair already exists, `insertUser` returns the
connection's most recent insert id — not the id of the existing row — and no
error, so the caller cannot recover the existing row's id. -/
theorem ignored_insert_returns_connection_last_id (c : DBConn) (name email : String)
    (hfi : c.failInsert = false)
    (hex : c.store.rows.any (pairEq (goTrim name) (goTrim email)) = true) :
    c.insertUser name email = ⟨c, c.lastId, none⟩ ∧
    (∀ u ∈ c.store.rows, pairEq (goTrim name) (goTrim email) u = true →
      u.id ≠ c.lastId → (c.insertUser name email).ret ≠ u.id) := by
  have h := insertUser_dup c name email hfi hex
  refine ⟨h, fun u hu hp hne => ?_⟩
  rw [h]
  exact fun hc => hne hc.symm

/-- C10 witness: re-inserting Alice's pair on a connection whose last insert
was row 2 returns 2 with no error, not Alice's id 1. -/
theorem ignored_insert_returns_connection_last_id_witness :
    exDupConn.insertUser "Alice" "a@x.com" = ⟨exDupConn, 2, none⟩ ∧
    (exDupConn.insertUser "Alice" "a@x.com").ret ≠ exAlice.id := by
  have h := ignored_insert_returns_connection_last_id exDupConn "Alice" "a@x.com"
    (by decide) (by decide)
  exact ⟨h.1, h.2 exAlice (by decide) (by decide) (by decide)⟩

/-- Reduction of the browse-mode backspace keystroke with a valid selection:
it reaches the delete branch (backspace matches the Delete binding and is not
consumed by the focused filter). -/
theorem updateListKeys_backspace (m : Model) (env : Env) (it : User)
    (hsel : m.selectedItem = some it) :
    (m.updateListKeys Key.backspace env).model =
      Model.syncListView
        { m with conn := (m.conn.deleteUser it.id).1,
                 fuzzy := FuzzyList.setAll (((m.conn.deleteUser it.id).1).allUsers).1 m.fuzzy,
                 status := "deleted" } ∧
    (m.updateListKeys Key.backspace env).effs = [] := by
  unfold Model.updateListKeys
  rw [if_neg (show ¬(kmatch Key.backspace quitKeys = true) from by decide)]
  rw [if_neg (show ¬(kmatch Key.backspace helpKeys = true) from by decide)]
  rw [if_neg (show ¬(kmatch Key.backspace filterKeys = true) from by decide)]
  rw [if_neg (show ¬((isRunes Key.backspace && m.filter.focused) = true) from by
    simp [isRunes])]
  rw [if_neg (show ¬(Key.backspace = Key.enter) from by decide)]
  rw [if_neg (show ¬(Key.backspace = Key.esc ∧ m.filter.focused = true) from
    fun h => absurd h.1 (by decide))]
  rw [if_neg (show ¬(kmatch Key.backspace addKeys = true) from by decide)]
  rw [if_pos (show kmatch Key.backspace deleteKeys = true from rfl)]
  simp only [hsel]
  exact ⟨trivial, trivial⟩

/-- C4 (code bug): with the filter focused on query `bo` and Bob selected,
backspace does not remove a character from the query.  It falls through to
the Delete binding: Bob's row is deleted from the store, the stored query is
reset to empty, and the filter input still reads `bo`. -/
theorem backspace_while_filtering_deletes_selected_row :
    (exFilt2.updateListKeys Key.backspace exEnv).model.conn.store.rows = [exAlice] ∧
    (exFilt2.updateListKeys Key.backspace exEnv).model.filter.value = "bo" ∧
    (exFilt2.updateListKeys Key.backspace exEnv).model.fuzzy.query = "" ∧
    (exFilt2.updateListKeys Key.backspace exEnv).model.status = "deleted" := by
  decide

/-- C1 counterexample: deleting while the query `ali` is active discards the
query instead of re-applying it — afterwards the filter input still shows
`ali`, the stored query is empty, and the view is not the fuzzy filter of the
new corpus at `ali`. -/
theorem delete_discards_active_query_cex :
    (exFilterModel.updateListKeys Key.backspace exEnv).model.filter.value = "ali" ∧
    (exFilterModel.updateListKeys Key.backspace exEnv).model.fuzzy.query = "" ∧
    (exFilterModel.updateListKeys Key.backspace exEnv).model.fuzzy.view ≠
      fuzzyFindView "ali" (exFilterModel.updateListKeys Key.backspace exEnv).model.fuzzy.all := by
  decide

/-- C2 counterexample: with a failing store, the delete action's store errors
are dropped — errorMessage stays empty while the status still reports
success. -/
theorem delete_error_silently_dropped_cex :
    (exFailModel.conn.deleteUser exAlice.id).2 = some "delete failed" ∧
    (exFailModel.updateListKeys Key.backspace exEnv).model.errMsg = "" ∧
    (exFailModel.updateListKeys Key.backspace exEnv).model.status = "deleted" := by
  decide

/-- C1 (amended): a store mutation rebuilds the index — afterwards the stored
query is empty (the pre-existing query is discarded, not re-applied, and the
filter input's text is left stale) and the view equals the full reloaded
corpus; a filter edit computes the view from the pre-edit corpus at the new
input value but, through the source's view/corpus slice aliasing, overwrites
the retained corpus's prefix with those matches — so `visibleIdentities =
applyFilter(filterQuery, allIdentities)` does not in general survive a
filter edit. -/
theorem mutations_rebuild_index_filter_edits_corrupt_corpus :
    (∀ (m : Model) (env : Env) (it : User), m.selectedItem = some it →
      (m.updateListKeys Key.backspace env).model.fuzzy.query = "" ∧
      (m.updateListKeys Key.backspace env).model.fuzzy.view =
        (m.updateListKeys Key.backspace env).model.fuzzy.all ∧
      (m.updateListKeys Key.backspace env).model.listItems =
        (m.updateListKeys Key.backspace env).model.fuzzy.view ∧
      (m.conn.failDelete = false → m.conn.failList = false →
        (m.updateListKeys Key.backspace env).model.fuzzy.all =
          sortByNameNocase (m.conn.store.rows.filter (fun u => u.id != it.id)))) ∧
    (∀ (m : Model), m.form1.focused = false →
      ¬(goTrim m.form1.value = "" ∨ goTrim m.form2.value = "" ∨
          (goTrim m.form2.value).data.contains '@' = false) →
      m.conn.failInsert = false →
      (m.updateFormKeys Key.enter).model.fuzzy.query = "" ∧
      (m.updateFormKeys Key.enter).model.fuzzy.view =
        (m.updateFormKeys Key.enter).model.fuzzy.all ∧
      (m.updateFormKeys Key.enter).model.mode = Mode.list ∧
      (m.updateFormKeys Key.enter).model.status = "saved") ∧
    (∀ (m : Model) (env : Env) (c : Char), m.filter.focused = true →
      kmatch (Key.char c) quitKeys = false → kmatch (Key.char c) helpKeys = false →
      kmatch (Key.char c) filterKeys = false →
      goTrim (m.filter.value.push c) ≠ "" →
      (m.updateListKeys (Key.char c) env).model.filter.value = m.filter.value.push c ∧
      (m.updateListKeys (Key.char c) env).model.fuzzy.query = m.filter.value.push c ∧
      (m.updateListKeys (Key.char c) env).model.fuzzy.view =
        fuzzyFindView (m.filter.value.push c) m.fuzzy.all ∧
      (m.updateListKeys (Key.char c) env).model.fuzzy.all =
        fuzzyFindView (m.filter.value.push c) m.fuzzy.all ++
          m.fuzzy.all.drop (fuzzyFindView (m.filter.value.push c) m.fuzzy.all).length ∧
      (m.updateListKeys (Key.char c) env).model.listItems =
        (m.updateListKeys (Key.char c) env).model.fuzzy.view) := by
  refine ⟨?_, ?_, ?_⟩
  · intro m env it hsel
    rcases updateListKeys_backspace m env it hsel with ⟨hm, _⟩
    rw [hm]
    refine ⟨rfl, rfl, rfl, ?_⟩
    intro hfd hfl
    show ((((m.conn.deleteUser it.id).1).allUsers).1) =
      sortByNameNocase (m.conn.store.rows.filter (fun u => u.id != it.id))
    simp [deleteUser_ok m.conn it.id hfd, DBConn.allUsers, hfl]
  · intro m hfoc hval hfi
    unfold Model.updateFormKeys
    rw [if_neg (show ¬(kmatch Key.enter clearKeys = true) from by decide)]
    rw [if_pos (rfl : Key.enter = Key.enter)]
    rw [if_neg (show ¬(m.form1.focused = true) from by simp [hfoc])]
    simp only [if_neg hval]
    by_cases hmode : m.mode = Mode.add
    · rw [if_pos hmode]
      have herr := insertUser_err_none m.conn (goTrim m.form1.value) (goTrim m.form2.value) hfi
      simp only [herr]
      exact ⟨rfl, rfl, rfl, rfl⟩
    · rw [if_neg hmode]
      rcases hsel : m.selectedItem with _ | it
      · simp only [hsel]
        have herr := insertUser_err_none m.conn (goTrim m.form1.value) (goTrim m.form2.value) hfi
        simp only [herr]
        exact ⟨rfl, rfl, rfl, rfl⟩
      · simp only [hsel]
        have hfi2 : ((m.conn.deleteUser it.id).1).failInsert = false :=
          ((deleteUser_fst_flags m.conn it.id).1).trans hfi
        have herr := insertUser_err_none ((m.conn.deleteUser it.id).1)
          (goTrim m.form1.value) (goTrim m.form2.value) hfi2
        simp only [herr]
        exact ⟨rfl, rfl, rfl, rfl⟩
  · intro m env c hfoc hq hh2 hf hne
    unfold Model.updateListKeys
    rw [if_neg (show ¬(kmatch (Key.char c) quitKeys = true) from by simp [hq])]
    rw [if_neg (show ¬(kmatch (Key.char c) helpKeys = true) from by simp [hh2])]
    rw [if_neg (show ¬(kmatch (Key.char c) filterKeys = true) from by simp [hf])]
    rw [if_pos (show (isRunes (Key.char c) && m.filter.focused) = true from by
      simp [isRunes, hfoc])]
    have hup : m.filter.update (Key.char c) =
        ⟨m.filter.value.push c, m.filter.focused⟩ := by
      simp [TextInput.update, hfoc]
    simp only [hup, apply_nonempty (m.filter.value.push c) m.fuzzy hne,
      Model.syncListView]
    exact ⟨by trivial, by trivial, by trivial, by trivial, by trivial⟩

/-- C1 witness: the amended statement at the sample states; the last
conjunct records the corpus corruption — after typing `b` the retained
corpus is the matches followed by its own tail. -/
theorem mutations_rebuild_index_witness :
    (exFilterModel.updateListKeys Key.backspace exEnv).model.fuzzy.query = "" ∧
    (exGoodForm.updateFormKeys Key.enter).model.status = "saved" ∧
    (exFreshFilter.updateListKeys (Key.char 'b') exEnv).model.fuzzy.all =
      fuzzyFindView (exFreshFilter.filter.value.push 'b') exFreshFilter.fuzzy.all ++
        exFreshFilter.fuzzy.all.drop
          (fuzzyFindView (exFreshFilter.filter.value.push 'b') exFreshFilter.fuzzy.all).length := by
  have h := mutations_rebuild_index_filter_edits_corrupt_corpus
  exact ⟨(h.1 exFilterModel exEnv exAlice (by decide)).1,
         (h.2.1 exGoodForm (by decide) (by decide) (by decide)).2.2.2,
         (h.2.2 exFreshFilter exEnv 'b' (by decide) (by decide) (by decide) (by decide)
           (by decide)).2.2.2.1⟩

/-- C2 (amended): a failing insert during a form submit — AddForm or
EditForm — surfaces as errorMessage and stops the rest of the submit (on the
edit path the preceding delete has already been applied); but the delete
action's own store errors are silently discarded: a failing delete still
reports status `deleted` with the store unchanged, and a failing post-delete
reload is swallowed too, the corpus being replaced by the empty error
result. -/
theorem insert_errors_surface_delete_and_reload_errors_dropped :
    (∀ (m : Model), m.form1.focused = false → m.mode = Mode.add →
      ¬(goTrim m.form1.value = "" ∨ goTrim m.form2.value = "" ∨
          (goTrim m.form2.value).data.contains '@' = false) →
      m.conn.failInsert = true →
      m.updateFormKeys Key.enter = ⟨{ m with errMsg := "insert failed" }, []⟩) ∧
    (∀ (m : Model) (it : User), m.form1.focused = false → m.mode = Mode.edit →
      m.selectedItem = some it →
      ¬(goTrim m.form1.value = "" ∨ goTrim m.form2.value = "" ∨
          (goTrim m.form2.value).data.contains '@' = false) →
      m.conn.failInsert = true → m.conn.failDelete = false →
      (m.updateFormKeys Key.enter).model.errMsg = "insert failed" ∧
      (m.updateFormKeys Key.enter).effs = [] ∧
      (m.updateFormKeys Key.enter).model.mode = m.mode ∧
      (m.updateFormKeys Key.enter).model.conn.store.rows =
        m.conn.store.rows.filter (fun u => u.id != it.id)) ∧
    (∀ (m : Model) (env : Env) (it : User), m.selectedItem = some it →
      m.conn.failDelete = true →
      (m.updateListKeys Key.backspace env).model.errMsg = m.errMsg ∧
      (m.updateListKeys Key.backspace env).model.status = "deleted" ∧
      (m.updateListKeys Key.backspace env).model.conn.store = m.conn.store) ∧
    (∀ (m : Model) (env : Env) (it : User), m.selectedItem = some it →
      m.conn.failDelete = false → m.conn.failList = true →
      (m.updateListKeys Key.backspace env).model.errMsg = m.errMsg ∧
      (m.updateListKeys Key.backspace env).model.status = "deleted" ∧
      (m.updateListKeys Key.backspace env).model.conn.store.rows =
        m.conn.store.rows.filter (fun u => u.id != it.id) ∧
      (m.updateListKeys Key.backspace env).model.fuzzy.all = []) := by
  refine ⟨?_, ?_, ?_, ?_⟩
  · intro m hfoc hmode hval hfail
    unfold Model.updateFormKeys
    rw [if_neg (show ¬(kmatch Key.enter clearKeys = true) from by decide)]
    rw [if_pos (rfl : Key.enter = Key.enter)]
    rw [if_neg (show ¬(m.form1.focused = true) from by simp [hfoc])]
    simp only [if_neg hval]
    rw [if_pos hmode]
    have hf := insertUser_fail m.conn (goTrim m.form1.value) (goTrim m.form2.value) hfail
    simp only [hf]
  · intro m it hfoc hmode hsel hval hfail hfd
    unfold Model.updateFormKeys
    rw [if_neg (show ¬(kmatch Key.enter clearKeys = true) from by decide)]
    rw [if_pos (rfl : Key.enter = Key.enter)]
    rw [if_neg (show ¬(m.form1.focused = true) from by simp [hfoc])]
    simp only [if_neg hval]
    rw [if_neg (show ¬(m.mode = Mode.add) from by simp [hmode])]
    simp only [hsel]
    have hfail2 : ((m.conn.deleteUser it.id).1).failInsert = true :=
      ((deleteUser_fst_flags m.conn it.id).1).trans hfail
    have hf := insertUser_fail ((m.conn.deleteUser it.id).1)
      (goTrim m.form1.value) (goTrim m.form2.value) hfail2
    simp only [hf]
    refine ⟨by trivial, by trivial, by trivial, ?_⟩
    show (((m.conn.deleteUser it.id).1)).store.rows =
      m.conn.store.rows.filter (fun u => u.id != it.id)
    simp [deleteUser_ok m.conn it.id hfd]
  · intro m env it hsel hfd
    rcases updateListKeys_backspace m env it hsel with ⟨hm, _⟩
    rw [hm]
    refine ⟨rfl, rfl, ?_⟩
    show ((m.conn.deleteUser it.id).1).store = m.conn.store
    unfold DBConn.deleteUser
    rw [if_pos hfd]
  · intro m env it hsel hfd hfl
    rcases updateListKeys_backspace m env it hsel with ⟨hm, _⟩
    rw [hm]
    refine ⟨rfl, rfl, ?_, ?_⟩
    · show ((m.conn.deleteUser it.id).1).store.rows =
        m.conn.store.rows.filter (fun u => u.id != it.id)
      simp [deleteUser_ok m.conn it.id hfd]
    · show ((((m.conn.deleteUser it.id).1).allUsers).1) = []
      simp [deleteUser_ok m.conn it.id hfd, DBConn.allUsers, hfl]

/-- C2 witness: the amended statement at the sample states — add and edit
submits over the insert-failing store, the delete-failing store, and the
reload-failing store. -/
theorem insert_errors_surface_witness :
    exFailInsForm.updateFormKeys Key.enter =
      ⟨{ exFailInsForm with errMsg := "insert failed" }, []⟩ ∧
    (exFailInsEdit.updateFormKeys Key.enter).model.errMsg = "insert failed" ∧
    (exFailModel.updateListKeys Key.backspace exEnv).model.errMsg = exFailModel.errMsg ∧
    (exFailListModel.updateListKeys Key.backspace exEnv).model.errMsg =
      exFailListModel.errMsg ∧
    (exFailListModel.updateListKeys Key.backspace exEnv).model.fuzzy.all = [] := by
  have h := insert_errors_surface_delete_and_reload_errors_dropped
  exact ⟨h.1 exFailInsForm (by decide) (by decide) (by decide) (by decide),
         (h.2.1 exFailInsEdit exAlice (by decide) (by decide) (by decide) (by decide)
            (by decide) (by decide)).1,
         (h.2.2.1 exFailModel exEnv exAlice (by decide) (by decide)).1,
         (h.2.2.2 exFailListModel exEnv exAlice (by decide) (by decide) (by decide)).1,
         (h.2.2.2 exFailListModel exEnv exAlice (by decide) (by decide) (by decide)).2.2.2⟩

theorem dropWhile_eq_nil_or_head (p : Char → Bool) (l : List Char) :
    l.dropWhile p = [] ∨ ∃ a t, l.dropWhile p = a :: t ∧ p a = false := by
  induction l with
  | nil => exact Or.inl rfl
  | cons a l ih =>
      by_cases h : p a = true
      · simpa [List.dropWhile_cons, h] using ih
      · exact Or.inr ⟨a, l, by simp [List.dropWhile_cons, h], by simpa using h⟩

theorem dropWhile_idem (p : Char → Bool) (l : List Char) :
    (l.dropWhile p).dropWhile p = l.dropWhile p := by
  rcases dropWhile_eq_nil_or_head p l with h | ⟨a, t, h, hpa⟩
  · rw [h]; rfl
  · rw [h]
    simp [List.dropWhile_cons, hpa]

theorem dropWhile_eq_self (p : Char → Bool) (l : List Char)
    (h : ∀ a, l.head? = some a → p a = false) : l.dropWhile p = l := by
  cases l with
  | nil => rfl
  | cons a t => rw [List.dropWhile_cons, if_neg (by simp [h a rfl])]

theorem dropWhile_getLast? (p : Char → Bool) (l : List Char) (h : l.dropWhile p ≠ []) :
    (l.dropWhile p).getLast? = l.getLast? := by
  induction l with
  | nil => exact absurd rfl h
  | cons a l ih =>
      by_cases hpa : p a = true
      · rw [List.dropWhile_cons, if_pos hpa] at h ⊢
        rw [ih h]
        rcases l with _ | ⟨b, t⟩
        · exact absurd rfl h
        · rw [List.getLast?_cons_cons]
      · rw [List.dropWhile_cons, if_neg hpa]

/-- Go's `TrimSpace` is idempotent; the double trim performed by a form
submit followed by the store insert equals a single trim. -/
theorem goTrim_goTrim (s : String) : goTrim (goTrim s) = goTrim s := by
  unfold goTrim
  congr 1
  show ((((((s.data.dropWhile Char.isWhitespace).reverse.dropWhile
        Char.isWhitespace).reverse).dropWhile Char.isWhitespace).reverse.dropWhile
        Char.isWhitespace).reverse) =
      ((s.data.dropWhile Char.isWhitespace).reverse.dropWhile Char.isWhitespace).reverse
  have hα : ((((s.data.dropWhile Char.isWhitespace).reverse.dropWhile
      Char.isWhitespace).reverse).dropWhile Char.isWhitespace) =
      (((s.data.dropWhile Char.isWhitespace).reverse.dropWhile
        Char.isWhitespace).reverse) := by
    apply dropWhile_eq_self
    intro a ha
    rw [List.head?_reverse] at ha
    by_cases hC : ((s.data.dropWhile Char.isWhitespace).reverse.dropWhile
        Char.isWhitespace) = []
    · rw [hC] at ha
      exact absurd ha (by simp)
    · rw [dropWhile_getLast? _ _ hC, List.getLast?_reverse] at ha
      rcases dropWhile_eq_nil_or_head Char.isWhitespace s.data with hE | ⟨b, t, hE, hpb⟩
      · rw [hE] at hC
        exact absurd rfl hC
      · rw [hE] at ha
        simp only [List.head?_cons, Option.some.injEq] at ha
        rw [ha] at hpb
        exact hpb
  rw [hα, List.reverse_reverse, dropWhile_idem]

/-- C5: a successful EditForm submit deletes the selected (edited) identity's
row and inserts the trimmed pair with insert-or-ignore semantics: no row
keeps the old id, exactly one row carries the trimmed pair afterwards, and
the `AUTOINCREMENT` id used for a fresh insert differs from every existing
row id; the session returns to browse with status `saved`. -/
theorem edit_submit_is_delete_then_insert (m : Model) (it : User)
    (hmode : m.mode = Mode.edit) (hfoc : m.form1.focused = false)
    (hsel : m.selectedItem = some it)
    (hval : ¬(goTrim m.form1.value = "" ∨ goTrim m.form2.value = "" ∨
        (goTrim m.form2.value).data.contains '@' = false))
    (hwf : m.conn.store.WF) (hh : m.conn.healthy)
    (hid : it.id < m.conn.store.nextId) :
    ((m.updateFormKeys Key.enter).model.conn.store.rows =
      (if (m.conn.store.rows.filter (fun u => u.id != it.id)).any
            (pairEq (goTrim m.form1.value) (goTrim m.form2.value)) then
         m.conn.store.rows.filter (fun u => u.id != it.id)
       else m.conn.store.rows.filter (fun u => u.id != it.id) ++
         [(⟨m.conn.store.nextId, goTrim m.form1.value, goTrim m.form2.value⟩ : User)])) ∧
    (∀ u ∈ (m.updateFormKeys Key.enter).model.conn.store.rows, u.id ≠ it.id) ∧
    ((m.updateFormKeys Key.enter).model.conn.store.rows.countP
        (pairEq (goTrim m.form1.value) (goTrim m.form2.value)) = 1) ∧
    (∀ u ∈ m.conn.store.rows, u.id ≠ m.conn.store.nextId) ∧
    ((m.updateFormKeys Key.enter).model.mode = Mode.list) ∧
    ((m.updateFormKeys Key.enter).model.status = "saved") := by
  obtain ⟨hfi, hfd, hfl⟩ := hh
  unfold Model.updateFormKeys
  rw [if_neg (show ¬(kmatch Key.enter clearKeys = true) from by decide)]
  rw [if_pos (rfl : Key.enter = Key.enter)]
  rw [if_neg (show ¬(m.form1.focused = true) from by simp [hfoc])]
  simp only [if_neg hval]
  rw [if_neg (show ¬(m.mode = Mode.add) from by simp [hmode])]
  simp only [hsel]
  have hfi2 : ((m.conn.deleteUser it.id).1).failInsert = false :=
    ((deleteUser_fst_flags m.conn it.id).1).trans hfi
  have herr := insertUser_err_none ((m.conn.deleteUser it.id).1)
    (goTrim m.form1.value) (goTrim m.form2.value) hfi2
  simp only [herr, Model.saveReload, Model.syncListView]
  simp only [deleteUser_ok m.conn it.id hfd]
  by_cases hany : (m.conn.store.rows.filter (fun u => u.id != it.id)).any
      (pairEq (goTrim m.form1.value) (goTrim m.form2.value)) = true
  · simp only [insertUser_dup
      (⟨⟨m.conn.store.rows.filter (fun u => u.id != it.id), m.conn.store.nextId⟩,
        m.conn.lastId, m.conn.failInsert, m.conn.failDelete, m.conn.failList⟩ : DBConn)
      (goTrim m.form1.value) (goTrim m.form2.value) hfi
      (by simpa only [goTrim_goTrim] using hany), goTrim_goTrim]
    refine ⟨by rw [if_pos hany], ?_, ?_, ?_, trivial, trivial⟩
    · intro u hu
      simpa using (List.mem_filter.mp hu).2
    · exact countP_pair_eq_one _ _ _ (hwf.1.filter (fun u => u.id != it.id)) hany
    · intro u hu
      have h1 := hwf.2 u hu
      omega
  · have hanyf : (m.conn.store.rows.filter (fun u => u.id != it.id)).any
        (pairEq (goTrim m.form1.value) (goTrim m.form2.value)) = false := by
      simpa using hany
    simp only [insertUser_fresh
      (⟨⟨m.conn.store.rows.filter (fun u => u.id != it.id), m.conn.store.nextId⟩,
        m.conn.lastId, m.conn.failInsert, m.conn.failDelete, m.conn.failList⟩ : DBConn)
      (goTrim m.form1.value) (goTrim m.form2.value) hfi
      (by simpa only [goTrim_goTrim] using hanyf), goTrim_goTrim]
    refine ⟨by rw [if_neg (by simp [hanyf])], ?_, ?_, ?_, trivial, trivial⟩
    · intro u hu
      rcases List.mem_append.mp hu with h1 | h1
      · simpa using (List.mem_filter.mp h1).2
      · have h2 := List.mem_singleton.mp h1
        subst h2
        show m.conn.store.nextId ≠ it.id
        omega
    · rw [List.countP_append]
      have hz : (m.conn.store.rows.filter (fun u => u.id != it.id)).countP
          (pairEq (goTrim m.form1.value) (goTrim m.form2.value)) = 0 := by
        rw [List.countP_eq_zero]
        exact List.any_eq_false.mp hanyf
      have ho : ([(⟨m.conn.store.nextId, goTrim m.form1.value, goTrim m.form2.value⟩ :
          User)]).countP (pairEq (goTrim m.form1.value) (goTrim m.form2.value)) = 1 := by
        rw [List.countP_cons_of_pos _ _ (by simp [pairEq]), List.countP_nil]
      omega
    · intro u hu
      have h1 := hwf.2 u hu
      omega

/-- C5 witness: editing Alice into Bob's exact pair merges them — one row
remains — while the session reports `saved`. -/
theorem edit_submit_witness :
    ((exEditForm.updateFormKeys Key.enter).model.conn.store.rows.countP
        (pairEq (goTrim exEditForm.form1.value) (goTrim exEditForm.form2.value)) = 1) ∧
    (∀ u ∈ (exEditForm.updateFormKeys Key.enter).model.conn.store.rows, u.id ≠ exAlice.id) ∧
    ((exEditForm.updateFormKeys Key.enter).model.status = "saved") := by
  have h := edit_submit_is_delete_then_insert exEditForm exAlice (by decide) (by decide)
    (by decide) (by decide) (by refine ⟨?_, ?_⟩ <;> decide) (by exact ⟨rfl, rfl, rfl⟩)
    (by decide)
  exact ⟨h.2.2.1, h.2.1, h.2.2.2.2.2⟩

end GitUser
